import Mathlib

/-!
Shallow embedding of `src/main.py` (excel-brute-force-test): the candidate
generation engine (`case_variations`, `generate_passwords`,
`generate_all_passwords`), the checkpoint ledger (`get_checked_passwords`
and the append performed by `test_passwords`), the verification loop
(`test_passwords`) and the encryption pre-check (`file_is_encrypted` /
`main`).  Python strings are modelled as `List Char`; Python `set`s are
modelled as insertion-ordered duplicate-free lists; external collaborators
(the msoffcrypto verifier and encryption check) are modelled as oracles
returning the outcome the surrounding `try/except` branches on.
-/

namespace ExcelBruteForce

/-- Python `str` restricted to the ASCII range this program works over. -/
abbrev Str := List Char

/-- Model of `string.ascii_letters`: lowercase `a`–`z` followed by uppercase `A`–`Z`. -/
def lettersList : List Char := (List.range' 97 26 ++ List.range' 65 26).map Char.ofNat

/-- Model of `string.digits`: `0`–`9`. -/
def digitsList : List Char := (List.range' 48 10).map Char.ofNat

/-- Model of `string.punctuation`: ASCII codes 33–47, 58–64, 91–96, 123–126. -/
def punctuationList : List Char :=
  (List.range' 33 15 ++ List.range' 58 7 ++ List.range' 91 6 ++ List.range' 123 4).map Char.ofNat

/-- Model of `valid_chars = string.ascii_letters + string.digits + string.punctuation`
(main.py line 117 and line 183). -/
def validChars : List Char := lettersList ++ digitsList ++ punctuationList

/-- The per-character alternatives of main.py line 22:
`(ch.lower(), ch.upper()) if ch.isalpha() else (ch,)`. -/
def caseOptions (c : Char) : List Char :=
  if c.isAlpha then [c.toLower, c.toUpper] else [c]

/-- Embeds `case_variations` (main.py lines 16–23): the `itertools.product` over the
per-character alternatives, joined back into strings.  `product` varies the
rightmost position fastest, which is exactly this recursion. -/
def case_variations : Str → List Str
  | [] => [[]]
  | c :: cs => (caseOptions c).flatMap (fun d => (case_variations cs).map (fun v => d :: v))

/-- One step of filtering a stream through a `seen` set
(`if x not in seen: seen.add(x); yield x`). -/
def dedupSeen {α : Type} [DecidableEq α] (seen : List α) : List α → List α
  | [] => []
  | x :: xs => if x ∈ seen then dedupSeen seen xs else x :: dedupSeen (x :: seen) xs

/-- The emission filter realised by the `seen_passwords` set of
`generate_passwords` (main.py lines 132, 148–150, 169–171); also models
building a Python `set` from an iterable in insertion order. -/
def dedupFilter {α : Type} [DecidableEq α] (l : List α) : List α := dedupSeen [] l

/-- Embeds `prefix_variations` / `suffix_variations` (main.py lines 121–129): a set
accumulating `case_variations` of every token, modelled in insertion order. -/
def variationsOfList (ts : List Str) : List Str :=
  dedupFilter (ts.flatMap case_variations)

/-- Embeds `first_chars = letters if prefix == "" else valid_chars` (main.py line 154). -/
def firstCharsFor (p : Str) : List Char :=
  if p = [] then lettersList else validChars

/-- All strings of length `n` over `chars`, in `itertools.product` order
(leftmost position varies slowest). -/
def allStrings (chars : List Char) : Nat → List Str
  | 0 => [[]]
  | n + 1 => chars.flatMap (fun c => (allStrings chars n).map (fun s => c :: s))

/-- The bodies of one length (main.py lines 157–164):
`char_pool = [first_chars] + [valid_chars] * (length - 1)` followed by
`itertools.product(*char_pool)`. -/
def bodiesOf (firstChars : List Char) : Nat → List Str
  | 0 => []
  | n + 1 => firstChars.flatMap (fun c => (allStrings validChars n).map (fun s => c :: s))

/-- The candidates produced for one (prefix variation, suffix variation) pair
(main.py lines 137–171), before the `seen_passwords` filter. -/
def pairStream (maxLen : Nat) (p s : Str) : List Str :=
  if p.length + s.length > maxLen then []
  else if maxLen - (p.length + s.length) = 0 then [p ++ s]
  else
    (List.range' 1 (maxLen - (p.length + s.length))).flatMap (fun len =>
      (bodiesOf (firstCharsFor p) len).flatMap (fun body =>
        (case_variations body).map (fun bv => p ++ bv ++ s)))

/-- The raw emission order of `generate_passwords` before the
`seen_passwords` filter: the two nested loops of main.py lines 135–136. -/
def rawStream (prefixes suffixes : List Str) (maxLen : Nat) : List Str :=
  (variationsOfList prefixes).flatMap (fun p =>
    (variationsOfList suffixes).flatMap (fun s => pairStream maxLen p s))

/-- Embeds `generate_passwords` (main.py lines 97–171).  `prefixes = prefixes or [""]`
and likewise for suffixes (lines 120, 126); every yield is guarded by the
`seen_passwords` set, i.e. the raw stream is deduplicated in order. -/
def generate_passwords (prefixes suffixes : List Str) (maxLen : Nat) : List Str :=
  dedupFilter (rawStream (if prefixes = [] then [[]] else prefixes)
    (if suffixes = [] then [[]] else suffixes) maxLen)

/-- Embeds `generate_all_passwords` (main.py lines 173–189): for each length 1..max,
every string over `valid_chars`, kept only if its first character is
alphabetic. -/
def generate_all_passwords (maxLen : Nat) : List Str :=
  (List.range' 1 maxLen).flatMap (fun len =>
    (allStrings validChars len).filter (fun pw =>
      match pw with
      | c :: _ => c.isAlpha
      | [] => false))

/-! ### Checkpoint ledger (`get_checked_passwords` and the append in `test_passwords`) -/

/-- The newline character appended after each recorded candidate
(main.py line 315: `checked_file.write(password + "\n")` via an f-string). -/
def nlChar : Char := Char.ofNat 10

/-- The default `csv` field delimiter, ASCII comma. -/
def commaChar : Char := Char.ofNat 44

/-- The default `csv` quote character, ASCII double quote. -/
def quoteChar : Char := Char.ofNat 34

/-- One append to the checked-passwords file (opened in mode `a`,
main.py line 275; write at line 315): the candidate followed by a newline. -/
def appendLedgerLine (content c : Str) : Str := content ++ c ++ [nlChar]

/-- Split file content into newline-separated segments. -/
def splitSeg : Str → List Str
  | [] => [[]]
  | c :: cs =>
    if c = nlChar then [] :: splitSeg cs
    else
      match splitSeg cs with
      | [] => [[c]]
      | seg :: rest => (c :: seg) :: rest

/-- The records seen when iterating the checked-passwords file: splitting on
newlines, where a trailing newline produces no extra empty record (a file
ending in a newline yields one record per written line). -/
def fileLines (s : Str) : List Str :=
  let segs := splitSeg s
  if segs.getLast? = some [] then segs.dropLast else segs

/-- The remainder of a quoted CSV field: a doubled quote character stands for
one literal quote, a single quote character closes the field. -/
def parseQuoted : Str → Str
  | [] => []
  | c :: cs =>
    if c = quoteChar then
      match cs with
      | [] => []
      | d :: ds => if d = quoteChar then quoteChar :: parseQuoted ds else []
    else c :: parseQuoted cs

/-- Models `row[0]` of `csv.reader` (default dialect) for one single-line record
(main.py lines 242–244): an empty line gives an empty row, so `row[0]`
raises `IndexError` (`none`); an unquoted field extends to the first comma;
a field opening with the quote character is read as a quoted field. -/
def csvFirstField (line : Str) : Option Str :=
  match line with
  | [] => none
  | c :: cs =>
    if c = quoteChar then some (parseQuoted cs)
    else some ((c :: cs).takeWhile (fun d => d ≠ commaChar))

/-- Embeds `get_checked_passwords` (main.py lines 226–246) applied to the content of
an existing checked-passwords file: one `csv.reader` row per line, the first
field of each row collected into a set (insertion order). -/
def get_checked_passwords (content : Str) : Option (List Str) :=
  (fileLines content).mapM csvFirstField |>.map dedupFilter

/-! ### Verification loop (`test_passwords`, main.py lines 249–320) -/

/-- The outcome of one `file.load_key(password=..., verify_password=True)`
call as branched on by the `try/except` of main.py lines 280–312: normal
return, `msoffcrypto.exceptions.DecryptionError`, `KeyboardInterrupt`,
or any other exception. -/
inductive VerifyResult : Type
  | ok : VerifyResult
  | decryptionError : VerifyResult
  | interrupt : VerifyResult
  | otherError : VerifyResult
deriving DecidableEq

/-- How the loop of `test_passwords` ended: `return` after a correct password
(line 299), falling off the candidate stream (line 317), or `break` after a
`KeyboardInterrupt` (line 310). -/
inductive Terminal : Type
  | success : Terminal
  | exhausted : Terminal
  | cancelled : Terminal
deriving DecidableEq

/-- Observable result of `test_passwords`: the candidates passed to
`load_key` (in order), the lines appended to the checked file, the lines
appended to the success file, the `num_checked` / `num_skipped` counters and
the way the loop terminated. -/
structure LoopResult : Type where
  invoked : List Str
  appended : List Str
  successRec : List Str
  numChecked : Nat
  numSkipped : Nat
  terminal : Terminal
deriving DecidableEq

/-- Embeds `test_passwords` (main.py lines 249–320) over the loaded ledger set `S`
(line 258) and the verifier oracle.  Per candidate: a member of `S` bumps
`num_skipped` and `continue`s (lines 283–285); otherwise `num_checked` is
bumped and `load_key` is invoked (lines 289–290); success writes the success
file and returns (lines 296–299); `DecryptionError` and unknown exceptions
fall through to the append at line 315; `KeyboardInterrupt` breaks out
without appending (lines 306–310). -/
def test_passwords (S : List Str) (verify : Str → VerifyResult) : List Str → LoopResult
  | [] => ⟨[], [], [], 0, 0, .exhausted⟩
  | p :: rest =>
    if p ∈ S then
      let r := test_passwords S verify rest
      ⟨r.invoked, r.appended, r.successRec, r.numChecked, r.numSkipped + 1, r.terminal⟩
    else
      match verify p with
      | .ok => ⟨[p], [], [p], 1, 0, .success⟩
      | .interrupt => ⟨[p], [], [], 1, 0, .cancelled⟩
      | .decryptionError =>
        let r := test_passwords S verify rest
        ⟨p :: r.invoked, p :: r.appended, r.successRec, r.numChecked + 1, r.numSkipped, r.terminal⟩
      | .otherError =>
        let r := test_passwords S verify rest
        ⟨p :: r.invoked, p :: r.appended, r.successRec, r.numChecked + 1, r.numSkipped, r.terminal⟩

/-! ### Encryption pre-check (`file_is_encrypted`, main.py lines 193–224) and `main` -/

/-- The outcome of `OOXMLFile(file).is_encrypted()` as branched on by the
`try/except` of main.py lines 209–219: a boolean answer, or one of the three
caught msoffcrypto exception classes. -/
inductive EncCheckOutcome : Type
  | result : Bool → EncCheckOutcome
  | decryptionError : EncCheckOutcome
  | fileFormatError : EncCheckOutcome
  | encryptionError : EncCheckOutcome
deriving DecidableEq

/-- Embeds `file_is_encrypted` (main.py lines 193–224) for an existing file: returns
the collaborator's boolean, and returns `False` when any of
`DecryptionError`, `FileFormatError` or `EncryptionError` is raised
(lines 214–224). -/
def file_is_encrypted : EncCheckOutcome → Bool
  | .result b => b
  | .decryptionError => false
  | .fileFormatError => false
  | .encryptionError => false

/-- The observable outcome of `main` (main.py lines 322–354) after argument
handling: either the early `exit()` at line 344 when the file is not
confirmed encrypted, or a completed `test_passwords` run over
`generate_passwords`. -/
inductive RunOutcome : Type
  | notEncrypted : RunOutcome
  | ran : LoopResult → RunOutcome
deriving DecidableEq

/-- Steps 1–3 of `main` (main.py lines 341–354): check encryption first; only
when confirmed, generate candidates and run `test_passwords` over them. -/
def mainRun (enc : EncCheckOutcome) (prefixes suffixes : List Str) (maxLen : Nat)
    (S : List Str) (verify : Str → VerifyResult) : RunOutcome :=
  if file_is_encrypted enc then
    .ran (test_passwords S verify (generate_passwords prefixes suffixes maxLen))
  else
    .notEncrypted

/-! ### Templated mode with base words -/

/-- Modelled from the spec: templated-mode candidate generation (spec §4.2)
driven by a non-empty `bases` vocabulary.  `src/main.py`'s
`generate_passwords` has no `bases` parameter; the templated generator exists
only in script variants outside `src/`.  Following the spec's words:
`prefixes`/`suffixes` default to the singleton empty string when unset; the
case expansions of every prefix, base and suffix are each deduplicated; then
every element of the cartesian product is yielded concatenated as
`prefix + base + suffix`. -/
def generate_passwords_templated (prefixes suffixes bases : List Str) : List Str :=
  let pv := variationsOfList (if prefixes = [] then [[]] else prefixes)
  let sv := variationsOfList (if suffixes = [] then [[]] else suffixes)
  let bv := variationsOfList bases
  pv.flatMap (fun p => bv.flatMap (fun b => sv.map (fun s => p ++ b ++ s)))


/-! ### Arithmetic facts about ASCII case mapping -/

theorem uint32_le_iff (a b : UInt32) : a ≤ b ↔ a.toNat ≤ b.toNat := by
  rw [UInt32.le_def, BitVec.le_def]
  rfl

theorem charToNat_ofNat {n : Nat} (h : n < 55296) : (Char.ofNat n).toNat = n := by
  rw [Char.ofNat, dif_pos (Or.inl h)]
  rfl

theorem charToNat_lt (c : Char) : c.toNat < 1114112 := by
  rcases c.valid with h | h
  · exact Nat.lt_trans h (by omega)
  · exact h.2

theorem char_eq_iff_toNat {c d : Char} : c = d ↔ c.toNat = d.toNat := by
  constructor
  · intro h
    rw [h]
  · intro h
    apply Char.ext
    apply UInt32.ext
    exact h

theorem isUpper_iff (c : Char) : c.isUpper = true ↔ 65 ≤ c.toNat ∧ c.toNat ≤ 90 := by
  simp only [Char.isUpper, Bool.and_eq_true, decide_eq_true_eq, ge_iff_le]
  rw [uint32_le_iff, uint32_le_iff]
  exact Iff.rfl

theorem isLower_iff (c : Char) : c.isLower = true ↔ 97 ≤ c.toNat ∧ c.toNat ≤ 122 := by
  simp only [Char.isLower, Bool.and_eq_true, decide_eq_true_eq, ge_iff_le]
  rw [uint32_le_iff, uint32_le_iff]
  exact Iff.rfl

theorem isAlpha_iff (c : Char) :
    c.isAlpha = true ↔ (65 ≤ c.toNat ∧ c.toNat ≤ 90) ∨ (97 ≤ c.toNat ∧ c.toNat ≤ 122) := by
  simp only [Char.isAlpha, Bool.or_eq_true, isUpper_iff, isLower_iff]

theorem toLower_toNat_of_upper {c : Char} (h1 : 65 ≤ c.toNat) (h2 : c.toNat ≤ 90) :
    c.toLower.toNat = c.toNat + 32 := by
  rw [Char.toLower, if_pos ⟨h1, h2⟩]
  exact charToNat_ofNat (by omega)

theorem toLower_eq_self_of_not_upper {c : Char} (h : ¬(65 ≤ c.toNat ∧ c.toNat ≤ 90)) :
    c.toLower = c := by
  rw [Char.toLower, if_neg h]

theorem toUpper_toNat_of_lower {c : Char} (h1 : 97 ≤ c.toNat) (h2 : c.toNat ≤ 122) :
    c.toUpper.toNat = c.toNat - 32 := by
  rw [Char.toUpper, if_pos ⟨h1, h2⟩]
  exact charToNat_ofNat (by omega)

theorem toUpper_eq_self_of_not_lower {c : Char} (h : ¬(97 ≤ c.toNat ∧ c.toNat ≤ 122)) :
    c.toUpper = c := by
  rw [Char.toUpper, if_neg h]

/-- On an alphabetic ASCII character the two case images differ; this is what
makes each alphabetic position of `case_variations` genuinely two-valued. -/
theorem toLower_ne_toUpper {c : Char} (h : c.isAlpha = true) : c.toLower ≠ c.toUpper := by
  rcases (isAlpha_iff c).mp h with ⟨h1, h2⟩ | ⟨h1, h2⟩
  · rw [toUpper_eq_self_of_not_lower (by omega)]
    intro heq
    have := toLower_toNat_of_upper h1 h2
    rw [heq] at this
    omega
  · rw [toLower_eq_self_of_not_upper (by omega)]
    intro heq
    have := toUpper_toNat_of_lower h1 h2
    rw [← heq] at this
    omega

theorem isAlpha_toLower {c : Char} (h : c.isAlpha = true) : c.toLower.isAlpha = true := by
  rcases (isAlpha_iff c).mp h with ⟨h1, h2⟩ | ⟨h1, h2⟩
  · have := toLower_toNat_of_upper h1 h2
    exact (isAlpha_iff _).mpr (Or.inr (by omega))
  · rw [toLower_eq_self_of_not_upper (by omega)]
    exact h

theorem isAlpha_toUpper {c : Char} (h : c.isAlpha = true) : c.toUpper.isAlpha = true := by
  rcases (isAlpha_iff c).mp h with ⟨h1, h2⟩ | ⟨h1, h2⟩
  · rw [toUpper_eq_self_of_not_lower (by omega)]
    exact h
  · have := toUpper_toNat_of_lower h1 h2
    exact (isAlpha_iff _).mpr (Or.inl (by omega))


/-! ### The seen-set filter -/

theorem mem_dedupSeen_iff {α : Type} [DecidableEq α] {x : α} :
    ∀ {seen l : List α}, x ∈ dedupSeen seen l ↔ x ∉ seen ∧ x ∈ l := by
  intro seen l
  induction l generalizing seen with
  | nil => simp [dedupSeen]
  | cons y ys ih =>
    simp only [dedupSeen]
    by_cases hy : y ∈ seen
    · rw [if_pos hy, ih]
      constructor
      · rintro ⟨hns, hm⟩
        exact ⟨hns, List.mem_cons_of_mem _ hm⟩
      · rintro ⟨hns, hm⟩
        rcases List.mem_cons.mp hm with rfl | hm'
        · exact absurd hy hns
        · exact ⟨hns, hm'⟩
    · rw [if_neg hy]
      simp only [List.mem_cons, ih]
      constructor
      · rintro (rfl | ⟨hns, hm⟩)
        · exact ⟨hy, Or.inl rfl⟩
        · exact ⟨fun hx => hns (Or.inr hx), Or.inr hm⟩
      · rintro ⟨hns, rfl | hm⟩
        · exact Or.inl rfl
        · by_cases hxy : x = y
          · exact Or.inl hxy
          · exact Or.inr ⟨by simp [List.mem_cons, hxy, hns], hm⟩

theorem nodup_dedupSeen {α : Type} [DecidableEq α] :
    ∀ (seen l : List α), (dedupSeen seen l).Nodup := by
  intro seen l
  induction l generalizing seen with
  | nil => simp [dedupSeen]
  | cons y ys ih =>
    simp only [dedupSeen]
    split
    · exact ih seen
    · refine List.Nodup.cons ?_ (ih (y :: seen))
      intro hmem
      exact (mem_dedupSeen_iff.mp hmem).1 (List.mem_cons_self y seen)

theorem mem_dedupFilter_iff {α : Type} [DecidableEq α] {x : α} {l : List α} :
    x ∈ dedupFilter l ↔ x ∈ l := by
  rw [dedupFilter, mem_dedupSeen_iff]
  simp

theorem nodup_dedupFilter {α : Type} [DecidableEq α] (l : List α) :
    (dedupFilter l).Nodup :=
  nodup_dedupSeen [] l

/-! ### Structure of `case_variations` -/

theorem caseOptions_nodup (c : Char) : (caseOptions c).Nodup := by
  unfold caseOptions
  split
  · simp only [List.nodup_cons, List.mem_singleton, List.not_mem_nil, not_false_iff,
      List.nodup_nil, and_true]
    exact toLower_ne_toUpper (by assumption)
  · simp

theorem case_variations_length (t : Str) :
    (case_variations t).length = 2 ^ t.countP (fun c => c.isAlpha) := by
  induction t with
  | nil => rfl
  | cons c cs ih =>
    by_cases h : c.isAlpha = true
    · simp [case_variations, caseOptions, h, ih, List.countP_cons, pow_succ]
      ring
    · simp [case_variations, caseOptions, h, ih, List.countP_cons]

theorem case_variations_nodup (t : Str) : (case_variations t).Nodup := by
  induction t with
  | nil => simp [case_variations]
  | cons c cs ih =>
    simp only [case_variations]
    rw [List.nodup_flatMap]
    constructor
    · intro d _
      exact ih.map (fun v w h => by injection h)
    · refine (caseOptions_nodup c).imp ?_
      intro d₁ d₂ hne
      intro x hx₁ hx₂
      rcases List.mem_map.mp hx₁ with ⟨v₁, _, rfl⟩
      rcases List.mem_map.mp hx₂ with ⟨v₂, _, heq⟩
      have hd : d₂ = d₁ := by injection heq
      exact hne hd.symm

theorem case_variations_shape {t v : Str} (hv : v ∈ case_variations t) :
    v.length = t.length ∧ ∀ p ∈ v.zip t, p.2.isAlpha = false → p.1 = p.2 := by
  induction t generalizing v with
  | nil =>
    simp only [case_variations, List.mem_singleton] at hv
    subst hv
    simp
  | cons c cs ih =>
    simp only [case_variations, List.mem_flatMap, List.mem_map] at hv
    obtain ⟨d, hd, v', hv', rfl⟩ := hv
    obtain ⟨hlen, hpos⟩ := ih hv'
    refine ⟨by simp [hlen], ?_⟩
    intro p hp
    rw [List.zip_cons_cons, List.mem_cons] at hp
    rcases hp with rfl | hp
    · intro hna
      have hopt : caseOptions c = [c] := by
        unfold caseOptions
        rw [if_neg (by simp [hna])]
      rw [hopt, List.mem_singleton] at hd
      exact hd
    · exact hpos p hp

/-! ### Structure of the exhaustive enumerations -/

theorem validChars_nodup : validChars.Nodup := by decide

theorem lettersList_alpha : ∀ c ∈ lettersList, c.isAlpha = true := by decide

theorem mem_allStrings {chars : List Char} {n : Nat} {s : Str} :
    s ∈ allStrings chars n ↔ s.length = n ∧ ∀ ch ∈ s, ch ∈ chars := by
  induction n generalizing s with
  | zero =>
    simp only [allStrings, List.mem_singleton]
    constructor
    · rintro rfl
      simp
    · rintro ⟨hl, _⟩
      exact List.length_eq_zero.mp hl
  | succ n ih =>
    simp only [allStrings, List.mem_flatMap, List.mem_map]
    constructor
    · rintro ⟨c, hc, t, ht, rfl⟩
      obtain ⟨hlen, hch⟩ := ih.mp ht
      refine ⟨by simp [hlen], ?_⟩
      intro ch hch'
      rcases List.mem_cons.mp hch' with rfl | hch'
      · exact hc
      · exact hch ch hch'
    · rintro ⟨hl, hch⟩
      match s, hl with
      | c :: t, hl =>
        refine ⟨c, hch c (List.mem_cons_self ..), t, ih.mpr ⟨by simpa using hl, ?_⟩, rfl⟩
        intro ch h
        exact hch ch (List.mem_cons_of_mem _ h)

theorem allStrings_nodup {chars : List Char} (h : chars.Nodup) :
    ∀ n, (allStrings chars n).Nodup
  | 0 => by simp [allStrings]
  | n + 1 => by
    simp only [allStrings]
    rw [List.nodup_flatMap]
    constructor
    · intro c _
      exact (allStrings_nodup h n).map (fun v w hvw => by injection hvw)
    · refine h.imp ?_
      intro c₁ c₂ hne x hx₁ hx₂
      rcases List.mem_map.mp hx₁ with ⟨v₁, _, rfl⟩
      rcases List.mem_map.mp hx₂ with ⟨v₂, _, heq⟩
      have hd : c₂ = c₁ := by injection heq
      exact hne hd.symm

theorem mem_bodiesOf {fc : List Char} {len : Nat} {body : Str}
    (h : body ∈ bodiesOf fc len) :
    ∃ c s, body = c :: s ∧ c ∈ fc := by
  match len with
  | 0 => simp [bodiesOf] at h
  | n + 1 =>
    simp only [bodiesOf, List.mem_flatMap, List.mem_map] at h
    obtain ⟨c, hc, s, _, rfl⟩ := h
    exact ⟨c, s, rfl, hc⟩

theorem mem_case_variations_cons {c : Char} {cs bv : Str}
    (h : bv ∈ case_variations (c :: cs)) :
    ∃ d v, bv = d :: v ∧ d ∈ caseOptions c ∧ v ∈ case_variations cs := by
  simp only [case_variations, List.mem_flatMap, List.mem_map] at h
  obtain ⟨d, hd, v, hv, rfl⟩ := h
  exact ⟨d, v, rfl, hd, hv⟩

theorem caseOptions_alpha {c d : Char} (hc : c.isAlpha = true) (hd : d ∈ caseOptions c) :
    d.isAlpha = true := by
  unfold caseOptions at hd
  rw [if_pos hc] at hd
  rcases List.mem_cons.mp hd with rfl | hd
  · exact isAlpha_toLower hc
  · rcases List.mem_cons.mp hd with rfl | hd
    · exact isAlpha_toUpper hc
    · simp at hd

/-! ### Prefix behaviour of the verification loop -/

theorem test_passwords_append_benign (S : List Str) (v : Str → VerifyResult)
    (pre : List Str)
    (h : ∀ q ∈ pre, q ∈ S ∨ v q = .decryptionError ∨ v q = .otherError)
    (rest : List Str) :
    test_passwords S v (pre ++ rest) =
      ⟨pre.filter (fun q => decide (q ∉ S)) ++ (test_passwords S v rest).invoked,
       pre.filter (fun q => decide (q ∉ S)) ++ (test_passwords S v rest).appended,
       (test_passwords S v rest).successRec,
       (pre.filter (fun q => decide (q ∉ S))).length + (test_passwords S v rest).numChecked,
       (pre.filter (fun q => decide (q ∈ S))).length + (test_passwords S v rest).numSkipped,
       (test_passwords S v rest).terminal⟩ := by
  induction pre with
  | nil => simp
  | cons q pre ih =>
    have hrest := ih (fun x hx => h x (List.mem_cons_of_mem _ hx))
    rw [List.cons_append]
    by_cases hqS : q ∈ S
    · simp only [test_passwords, if_pos hqS, hrest]
      simp [hqS, List.filter_cons, LoopResult.mk.injEq]
      omega
    · have hv : v q = .decryptionError ∨ v q = .otherError := by
        rcases h q (List.mem_cons_self ..) with hq | hq | hq
        · exact absurd hq hqS
        · exact Or.inl hq
        · exact Or.inr hq
      rcases hv with hq | hq
      · simp only [test_passwords, if_neg hqS, hq, hrest]
        simp [hqS, List.filter_cons, LoopResult.mk.injEq]
        omega
      · simp only [test_passwords, if_neg hqS, hq, hrest]
        simp [hqS, List.filter_cons, LoopResult.mk.injEq]
        omega

/-! ### Claims -/

/-- C2: for every input (prefix list, suffix list, max_length ≥ 1), the
candidate stream produced by `generate_passwords` contains no string twice:
any two candidates yielded at different positions are distinct strings,
regardless of how many generation paths render the same concatenation. -/
theorem claim_C2 (prefixes suffixes : List Str) (maxLen : Nat) (_hml : 1 ≤ maxLen) :
    (generate_passwords prefixes suffixes maxLen).Nodup :=
  nodup_dedupFilter _

/-- Witness for C2 at `prefixes = [], suffixes = [], max_length = 1`. -/
theorem claim_C2_witness : (generate_passwords [] [] 1).Nodup :=
  claim_C2 [] [] 1 (by decide)

/-- C3: `case_variations t` yields exactly `2 ^ k` distinct strings, where
`k` is the number of alphabetic characters of `t`; non-alphabetic characters
are identical in every variant (position by position); for the empty token it
yields exactly one element, the empty string. -/
theorem claim_C3 (t : Str) :
    (case_variations t).length = 2 ^ t.countP (fun c => c.isAlpha) ∧
    (case_variations t).Nodup ∧
    (∀ v ∈ case_variations t, v.length = t.length ∧
      ∀ p ∈ v.zip t, p.2.isAlpha = false → p.1 = p.2) ∧
    case_variations [] = [[]] :=
  ⟨case_variations_length t, case_variations_nodup t,
    fun _ hv => case_variations_shape hv, rfl⟩

/-- Witness for C3 on the token `"a1"`: two distinct variants, and the
non-alphabetic second position of the variant `"A1"` is unchanged. -/
theorem claim_C3_witness :
    (case_variations ['a', '1']).length = 2 ∧
    (case_variations ['a', '1']).Nodup ∧
    (['A', '1'] : Str).length = (['a', '1'] : Str).length := by
  have h := claim_C3 ['a', '1']
  refine ⟨by simpa using h.1, h.2.1, (h.2.2.1 ['A', '1'] (by decide)).1⟩

/-- C7 (code bug): the ledger is written as one newline-delimited string per
line, but read back through `csv.reader`; a candidate containing a comma —
a charset character — is truncated at the comma on load.  Appending `"a,b"`
to an empty ledger and loading yields the set `{"a"}`: the appended string
itself is not in the loaded set, and an untested string is. -/
theorem claim_C7 :
    get_checked_passwords (appendLedgerLine [] ['a', commaChar, 'b']) = some [['a']] ∧
    ['a', commaChar, 'b'] ∉ [(['a'] : Str)] := by
  constructor
  · rfl
  · decide

/-- C8 (modelled from the spec, templated mode): with `bases = {"ab"}` and no
prefixes or suffixes, the emitted candidates are exactly
`{"ab", "aB", "Ab", "AB"}` — four elements, the cartesian product of the
deduplicated prefix-variant, base-variant and suffix-variant sets
concatenated as prefix + base + suffix. -/
theorem claim_C8 :
    generate_passwords_templated [] [] [['a', 'b']] =
      [['a', 'b'], ['a', 'B'], ['A', 'b'], ['A', 'B']] ∧
    (generate_passwords_templated [] [] [['a', 'b']]).length = 4 := by
  constructor
  · rfl
  · rfl

/-- C9: if the encryption-check collaborator fails with a decryption-,
format-, or encryption-related error, `file_is_encrypted` conservatively
reports `false`, and the run stops early without generating or testing any
candidate. -/
theorem claim_C9 (enc : EncCheckOutcome) (prefixes suffixes : List Str)
    (maxLen : Nat) (S : List Str) (v : Str → VerifyResult)
    (h : enc = .decryptionError ∨ enc = .fileFormatError ∨ enc = .encryptionError) :
    file_is_encrypted enc = false ∧
    mainRun enc prefixes suffixes maxLen S v = .notEncrypted := by
  rcases h with rfl | rfl | rfl <;> exact ⟨rfl, rfl⟩

/-- Witness for C9 at a `DecryptionError` outcome. -/
theorem claim_C9_witness :
    file_is_encrypted .decryptionError = false ∧
    mainRun .decryptionError [] [] 1 [] (fun _ => .ok) = .notEncrypted :=
  claim_C9 .decryptionError [] [] 1 [] (fun _ => .ok) (Or.inl rfl)

/-- C10: `generate_all_passwords` yields pairwise-distinct strings even
though it maintains no deduplication set, and every emitted string has length
between 1 and `max_length` over the fixed charset of ASCII letters, digits
and punctuation. -/
theorem claim_C10 (maxLen : Nat) :
    (generate_all_passwords maxLen).Nodup ∧
    ∀ pw ∈ generate_all_passwords maxLen,
      1 ≤ pw.length ∧ pw.length ≤ maxLen ∧ ∀ ch ∈ pw, ch ∈ validChars := by
  constructor
  · unfold generate_all_passwords
    rw [List.nodup_flatMap]
    constructor
    · intro len _
      exact List.Nodup.filter _ (allStrings_nodup validChars_nodup len)
    · refine (List.nodup_range' 1 maxLen).imp ?_
      intro a b hne x hxa hxb
      have ha := (mem_allStrings.mp (List.mem_of_mem_filter hxa)).1
      have hb := (mem_allStrings.mp (List.mem_of_mem_filter hxb)).1
      exact hne (by omega)
  · intro pw hpw
    unfold generate_all_passwords at hpw
    rw [List.mem_flatMap] at hpw
    obtain ⟨len, hlen, hpw⟩ := hpw
    rw [List.mem_range'_1] at hlen
    have hm := mem_allStrings.mp (List.mem_of_mem_filter hpw)
    exact ⟨by omega, by omega, hm.2⟩

/-- Witness for C10 at `max_length = 1` and the emitted candidate `"a"`. -/
theorem claim_C10_witness :
    (generate_all_passwords 1).Nodup ∧ 1 ≤ (['a'] : Str).length := by
  have h := claim_C10 1
  exact ⟨h.1, (h.2 ['a'] (by decide)).1⟩

/-- C1: with the ledger set `S` loaded at run start, the verifier is never
invoked on a candidate in `S`, and when the run terminates by exhausting the
stream every candidate of the stream not in `S` was invoked (a candidate not
in `S` misses verification only if a terminal state was reached earlier). -/
theorem claim_C1 (S : List Str) (v : Str → VerifyResult) (l : List Str) :
    (∀ c ∈ (test_passwords S v l).invoked, c ∉ S) ∧
    ((test_passwords S v l).terminal = .exhausted →
      ∀ c ∈ l, c ∉ S → c ∈ (test_passwords S v l).invoked) := by
  induction l with
  | nil => simp [test_passwords]
  | cons p rest ih =>
    by_cases hp : p ∈ S
    · simp only [test_passwords, if_pos hp]
      refine ⟨ih.1, ?_⟩
      intro hterm c hc hcS
      rcases List.mem_cons.mp hc with rfl | hc'
      · exact absurd hp hcS
      · exact ih.2 hterm c hc' hcS
    · cases hv : v p with
      | ok =>
        simp only [test_passwords, if_neg hp, hv]
        constructor
        · intro c hc
          rw [List.mem_singleton] at hc
          exact hc ▸ hp
        · intro hterm
          exact absurd hterm (by decide)
      | interrupt =>
        simp only [test_passwords, if_neg hp, hv]
        constructor
        · intro c hc
          rw [List.mem_singleton] at hc
          exact hc ▸ hp
        · intro hterm
          exact absurd hterm (by decide)
      | decryptionError =>
        simp only [test_passwords, if_neg hp, hv]
        constructor
        · intro c hc
          rcases List.mem_cons.mp hc with rfl | hc'
          · exact hp
          · exact ih.1 c hc'
        · intro hterm c hc hcS
          rcases List.mem_cons.mp hc with rfl | hc'
          · exact List.mem_cons_self ..
          · exact List.mem_cons_of_mem _ (ih.2 hterm c hc' hcS)
      | otherError =>
        simp only [test_passwords, if_neg hp, hv]
        constructor
        · intro c hc
          rcases List.mem_cons.mp hc with rfl | hc'
          · exact hp
          · exact ih.1 c hc'
        · intro hterm c hc hcS
          rcases List.mem_cons.mp hc with rfl | hc'
          · exact List.mem_cons_self ..
          · exact List.mem_cons_of_mem _ (ih.2 hterm c hc' hcS)

/-- Witness for C1: ledger `{"a"}`, stream `["a", "b"]`, all wrong passwords:
`"b"` is invoked, `"a"` never is. -/
theorem claim_C1_witness :
    ['b'] ∈ (test_passwords [['a']] (fun _ => .decryptionError) [['a'], ['b']]).invoked ∧
    ['a'] ∉ (test_passwords [['a']] (fun _ => .decryptionError) [['a'], ['b']]).invoked := by
  have h := claim_C1 [['a']] (fun _ => .decryptionError) [['a'], ['b']]
  exact ⟨h.2 (by decide) ['b'] (by decide) (by decide), fun hm => h.1 ['a'] hm (by decide)⟩

/-- C5: when the verifier succeeds on the n-th candidate reaching it, the
loop records the password once in the success record, appends exactly the
n−1 earlier failures (never the successful candidate), sets `num_checked`
to n, and pulls no further candidates from the stream. -/
theorem claim_C5 (S : List Str) (v : Str → VerifyResult) (pre : List Str) (p : Str)
    (post : List Str)
    (hpre : ∀ q ∈ pre, q ∈ S ∨ v q = .decryptionError ∨ v q = .otherError)
    (hp : p ∉ S) (hok : v p = .ok) :
    (test_passwords S v (pre ++ p :: post)).terminal = .success ∧
    (test_passwords S v (pre ++ p :: post)).successRec = [p] ∧
    (test_passwords S v (pre ++ p :: post)).appended
      = pre.filter (fun q => decide (q ∉ S)) ∧
    (test_passwords S v (pre ++ p :: post)).numChecked
      = (pre.filter (fun q => decide (q ∉ S))).length + 1 ∧
    p ∉ (test_passwords S v (pre ++ p :: post)).appended ∧
    test_passwords S v (pre ++ p :: post) = test_passwords S v (pre ++ [p]) := by
  have hmid : test_passwords S v (p :: post) = ⟨[p], [], [p], 1, 0, .success⟩ := by
    simp only [test_passwords, if_neg hp, hok]
  have hone : test_passwords S v [p] = ⟨[p], [], [p], 1, 0, .success⟩ := by
    simp only [test_passwords, if_neg hp, hok]
  have h1 := test_passwords_append_benign S v pre hpre (p :: post)
  have h2 := test_passwords_append_benign S v pre hpre [p]
  rw [hmid] at h1
  rw [hone] at h2
  have hnotpre : p ∉ pre.filter (fun q => decide (q ∉ S)) := by
    intro hmem
    rcases hpre p (List.mem_of_mem_filter hmem) with hx | hx | hx
    · exact hp hx
    · exact VerifyResult.noConfusion (hok ▸ hx)
    · exact VerifyResult.noConfusion (hok ▸ hx)
  rw [h1, h2]
  refine ⟨rfl, rfl, by simp, by simp, by simpa using hnotpre, rfl⟩

/-- Witness for C5: ledger `{"a"}`, stream `["a", "b", "x", "z"]` with `"x"`
the correct password: one skip, one failure appended, success recorded once,
and the run is unchanged if the stream is cut after `"x"`. -/
theorem claim_C5_witness :
    (test_passwords [['a']] (fun q => if q = ['x'] then .ok else .decryptionError)
      ([['a'], ['b']] ++ ['x'] :: [['z']])).terminal = .success ∧
    (test_passwords [['a']] (fun q => if q = ['x'] then .ok else .decryptionError)
      ([['a'], ['b']] ++ ['x'] :: [['z']])).successRec = [['x']] ∧
    (test_passwords [['a']] (fun q => if q = ['x'] then .ok else .decryptionError)
      ([['a'], ['b']] ++ ['x'] :: [['z']])).appended = [['b']] ∧
    (test_passwords [['a']] (fun q => if q = ['x'] then .ok else .decryptionError)
      ([['a'], ['b']] ++ ['x'] :: [['z']])).numChecked = 2 ∧
    test_passwords [['a']] (fun q => if q = ['x'] then .ok else .decryptionError)
        ([['a'], ['b']] ++ ['x'] :: [['z']])
      = test_passwords [['a']] (fun q => if q = ['x'] then .ok else .decryptionError)
        ([['a'], ['b']] ++ [['x']]) := by
  have h := claim_C5 [['a']] (fun q => if q = ['x'] then .ok else .decryptionError)
    [['a'], ['b']] ['x'] [['z']] (by decide) (by decide) (by decide)
  refine ⟨h.1, h.2.1, ?_, ?_, h.2.2.2.2.2⟩
  · rw [h.2.2.1]
    decide
  · rw [h.2.2.2.1]
    decide

/-- C6: when a cancellation signal (KeyboardInterrupt) is observed during
verification, the loop reaches the `Cancelled` terminal state and stops
pulling candidates; every ledger append made before the signal is preserved
exactly, the candidate in flight is not recorded, and no success is
recorded. -/
theorem claim_C6 (S : List Str) (v : Str → VerifyResult) (pre : List Str) (p : Str)
    (post : List Str)
    (hpre : ∀ q ∈ pre, q ∈ S ∨ v q = .decryptionError ∨ v q = .otherError)
    (hp : p ∉ S) (hint : v p = .interrupt) :
    (test_passwords S v (pre ++ p :: post)).terminal = .cancelled ∧
    (test_passwords S v (pre ++ p :: post)).appended
      = pre.filter (fun q => decide (q ∉ S)) ∧
    p ∉ (test_passwords S v (pre ++ p :: post)).appended ∧
    (test_passwords S v (pre ++ p :: post)).successRec = [] ∧
    test_passwords S v (pre ++ p :: post) = test_passwords S v (pre ++ [p]) := by
  have hmid : test_passwords S v (p :: post) = ⟨[p], [], [], 1, 0, .cancelled⟩ := by
    simp only [test_passwords, if_neg hp, hint]
  have hone : test_passwords S v [p] = ⟨[p], [], [], 1, 0, .cancelled⟩ := by
    simp only [test_passwords, if_neg hp, hint]
  have h1 := test_passwords_append_benign S v pre hpre (p :: post)
  have h2 := test_passwords_append_benign S v pre hpre [p]
  rw [hmid] at h1
  rw [hone] at h2
  have hnotpre : p ∉ pre.filter (fun q => decide (q ∉ S)) := by
    intro hmem
    rcases hpre p (List.mem_of_mem_filter hmem) with hx | hx | hx
    · exact hp hx
    · exact VerifyResult.noConfusion (hint ▸ hx)
    · exact VerifyResult.noConfusion (hint ▸ hx)
  rw [h1, h2]
  refine ⟨rfl, by simp, by simpa using hnotpre, rfl, rfl⟩

/-- Witness for C6: the signal arrives while `"k"` is in flight after one
failure was appended; terminal state is cancelled, the ledger holds exactly
the earlier failure, and the cut stream gives the same result. -/
theorem claim_C6_witness :
    (test_passwords [] (fun q => if q = ['k'] then .interrupt else .decryptionError)
      ([['a']] ++ ['k'] :: [['z']])).terminal = .cancelled ∧
    (test_passwords [] (fun q => if q = ['k'] then .interrupt else .decryptionError)
      ([['a']] ++ ['k'] :: [['z']])).appended = [['a']] ∧
    (test_passwords [] (fun q => if q = ['k'] then .interrupt else .decryptionError)
      ([['a']] ++ ['k'] :: [['z']])).successRec = [] ∧
    test_passwords [] (fun q => if q = ['k'] then .interrupt else .decryptionError)
        ([['a']] ++ ['k'] :: [['z']])
      = test_passwords [] (fun q => if q = ['k'] then .interrupt else .decryptionError)
        ([['a']] ++ [['k']]) := by
  have h := claim_C6 [] (fun q => if q = ['k'] then .interrupt else .decryptionError)
    [['a']] ['k'] [['z']] (by decide) (by decide) (by decide)
  refine ⟨h.1, ?_, h.2.2.2.1, h.2.2.2.2⟩
  · rw [h.2.1]
    decide

/-- C4 as stated is refuted: with no prefixes, suffixes `{"1"}` and
`max_length = 1`, the candidate `"1"` is emitted via the (sole, empty) prefix
variant, yet its first character is not alphabetic: the body-less
prefix+suffix branch bypasses the letters-only first-character pool. -/
theorem claim_C4_counterexample :
    ['1'] ∈ generate_passwords [] [['1']] 1 ∧ Char.isAlpha '1' = false := by
  constructor
  · decide
  · rfl

/-- C4 amended: in the pure exhaustive submode (no prefixes, no suffixes,
`max_length ≥ 1`) every emitted candidate — all of which carry a body — has
an alphabetic first character; candidates formed as prefix+suffix alone are
exempt; and for a non-empty prefix variant the body's first-character pool is
the full charset (letters, digits, punctuation), while it is the letters pool
exactly when the prefix variant is empty. -/
theorem claim_C4 :
    (∀ maxLen : Nat, 1 ≤ maxLen → ∀ pw ∈ generate_passwords [] [] maxLen,
      pw.head?.any (fun c => c.isAlpha) = true) ∧
    (∀ p : Str, p ≠ [] → firstCharsFor p = validChars) ∧
    firstCharsFor [] = lettersList := by
  refine ⟨?_, ?_, rfl⟩
  · intro maxLen hmax pw hpw
    have hgen : generate_passwords [] [] maxLen = dedupFilter (rawStream [[]] [[]] maxLen) := rfl
    have hraw : rawStream [[]] [[]] maxLen = pairStream maxLen [] [] := by
      have hv : variationsOfList [[]] = [[]] := rfl
      unfold rawStream
      rw [hv]
      simp
    rw [hgen, mem_dedupFilter_iff, hraw] at hpw
    unfold pairStream at hpw
    have hc1 : ¬(([] : Str).length + ([] : Str).length > maxLen) := by simp
    have hc2 : ¬(maxLen - (([] : Str).length + ([] : Str).length) = 0) := by
      simp only [List.length_nil, Nat.add_zero, Nat.sub_zero]
      omega
    rw [if_neg hc1, if_neg hc2] at hpw
    rw [List.mem_flatMap] at hpw
    obtain ⟨len, _, hpw⟩ := hpw
    rw [List.mem_flatMap] at hpw
    obtain ⟨body, hbody, hpw⟩ := hpw
    rw [List.mem_map] at hpw
    obtain ⟨bv, hbv, rfl⟩ := hpw
    have hfc : firstCharsFor ([] : Str) = lettersList := rfl
    rw [hfc] at hbody
    obtain ⟨c, s, rfl, hc⟩ := mem_bodiesOf hbody
    obtain ⟨d, v', rfl, hd, _⟩ := mem_case_variations_cons hbv
    have hda := caseOptions_alpha (lettersList_alpha c hc) hd
    simp [hda]
  · intro p hp
    unfold firstCharsFor
    rw [if_neg hp]

/-- Witness for the amended C4: the pure-submode candidate `"a"` starts with
a letter, and a non-empty prefix variant lifts the first-character
restriction to the full charset. -/
theorem claim_C4_witness :
    (['a'] : Str).head?.any (fun c => c.isAlpha) = true ∧
    firstCharsFor ['1'] = validChars := by
  have h := claim_C4
  exact ⟨h.1 1 (by decide) ['a'] (by decide), h.2.1 ['1'] (by decide)⟩

end ExcelBruteForce
